import Mathlib

/-!
Verification of the atlas registry core (`atlas_mcp/registry.py`): the
hand-written YAML-like parsers (`parse_registry`, `_parse_project_yaml`) and
the path-resolution engine (`resolve_project_path`, `find_project_for_path`).

The Python code is shallowly embedded: strings are Lean `String`s manipulated
as `List Char`; Python dicts are insertion-ordered association lists with
update-in-place semantics; the filesystem (symlink resolution via
`Path.resolve`, `is_dir`, the home directory) is an abstract `FS` record, so
theorems quantified over `FS` hold for every filesystem, including ones with
arbitrary symlink indirection.
-/

set_option maxRecDepth 10000

/-! ## Python string primitives -/

/-- Characters stripped by Python `str.strip()` with no argument. -/
def isPySpace (c : Char) : Bool :=
  c = ' ' ∨ c = '\t' ∨ c = '\n' ∨ c = '\r' ∨ c = Char.ofNat 11 ∨ c = Char.ofNat 12

/-- Python `s.strip(chars)`: remove all leading and trailing chars matching `p`. -/
def stripAll (p : Char → Bool) (s : String) : String :=
  ⟨((s.toList.dropWhile p).reverse.dropWhile p).reverse⟩

/-- Python `s.strip()`. -/
def pyStrip (s : String) : String := stripAll isPySpace s

/-- Python `s.rstrip()`. -/
def pyRStrip (s : String) : String :=
  ⟨(s.toList.reverse.dropWhile isPySpace).reverse⟩

/-- Python `s.rstrip("\n")`. -/
def rstripNL (s : String) : String :=
  ⟨(s.toList.reverse.dropWhile (fun c => c = '\n')).reverse⟩

/-- Python `.strip('"').strip("'")` as applied after `.strip()` in the source. -/
def stripQV (s : String) : String :=
  stripAll (fun c => c = Char.ofNat 39) (stripAll (fun c => c = '"') s)

/-- Whether the char list `l` begins with the char list `pre`. -/
def listStarts : List Char → List Char → Bool
  | _, [] => true
  | [], _ :: _ => false
  | x :: xs, y :: ys => if x = y then listStarts xs ys else false

/-- Python `s.startswith(pre)`. -/
def sStartsWith (s pre : String) : Bool := listStarts s.toList pre.toList

/-- Python `s.endswith(suf)`. -/
def sEndsWith (s suf : String) : Bool :=
  listStarts s.toList.reverse suf.toList.reverse

/-- Python `s[n:]` (by code point). -/
def sDrop (s : String) (n : Nat) : String := ⟨s.toList.drop n⟩

/-- Python `s.removeprefix(pre)`. -/
def removePrefixPy (pre s : String) : String :=
  if sStartsWith s pre then sDrop s pre.toList.length else s

/-- The part of `l` after the first occurrence of `c` (empty if `c` absent),
matching the third component of Python `"".join(l).partition(c)`. -/
def partAfterChar (c : Char) : List Char → List Char
  | [] => []
  | x :: xs => if x = c then xs else partAfterChar c xs

/-- The part of `l` before the first occurrence of `c` (all of `l` if absent),
matching the first component of Python `partition(c)`. -/
def partBeforeChar (c : Char) : List Char → List Char
  | [] => []
  | x :: xs => if x = c then [] else x :: partBeforeChar c xs

/-- Python `s.split(c)` (always at least one part). -/
def splitChar (c : Char) : List Char → List (List Char)
  | [] => [[]]
  | x :: xs =>
    if x = c then [] :: splitChar c xs
    else
      match splitChar c xs with
      | [] => [[x]]
      | y :: ys => (x :: y) :: ys

/-- Python `text.splitlines()` for texts whose line separator is `\n`. -/
def splitLines (s : String) : List String :=
  if s.toList = [] then []
  else
    let parts := (splitChar '\n' s.toList).map (fun l => (⟨l⟩ : String))
    if s.toList.getLast? = some '\n' then parts.dropLast else parts

/-- Python `"\n".join(l)`. -/
def joinNL : List String → String
  | [] => ""
  | [x] => x
  | x :: xs => x ++ "\n" ++ joinNL xs

/-! ## Registry records and `parse_registry` -/

/-- One project entry of `registry.yaml`:
`{slug, path, repo, additional_paths: []}` as built by `parse_registry`. -/
structure RegRecord where
  slug : String
  path : String
  repo : String
  additional_paths : List String
deriving DecidableEq, Repr

/-- Python `parse_yaml_value`: value after the first `:`, stripped of
whitespace and then of double and single quotes. -/
def parse_yaml_value (line : String) : String :=
  stripQV (pyStrip ⟨partAfterChar ':' line.toList⟩)

/-- Characters of the slug character class `[a-zA-Z0-9_-]`. -/
def slugChar (c : Char) : Bool := c.isAlphanum ∨ c = '_' ∨ c = '-'

/-- The regex `^  ([a-zA-Z0-9_-]+):\s*$` of `parse_registry`, returning the
captured slug on a match. -/
def matchSlugLine (line : String) : Option String :=
  match line.toList with
  | ' ' :: ' ' :: rest =>
    match rest.drop (rest.takeWhile slugChar).length with
    | ':' :: tl =>
      if rest.takeWhile slugChar ≠ [] ∧ tl.all isPySpace then
        some ⟨rest.takeWhile slugChar⟩
      else none
    | _ => none
  | _ => none

/-- The regex `^    [a-z]` of `parse_registry`. -/
def matchFourSpaceLower (line : String) : Bool :=
  match line.toList with
  | ' ' :: ' ' :: ' ' :: ' ' :: c :: _ => c.isLower
  | _ => false

/-- Loop state of `parse_registry`: emitted records, the record being built,
and whether an `additional_paths:` block is open. -/
structure RegState where
  projects : List RegRecord
  current : Option RegRecord
  in_additional : Bool

/-- One iteration of the `parse_registry` line loop. -/
def regStep (st : RegState) (raw_line : String) : RegState :=
  let line := pyRStrip raw_line
  if line = "projects:" then st
  else if pyStrip line = "" ∨ sStartsWith (pyStrip line) "#" then
    { st with in_additional := false }
  else
    match matchSlugLine line with
    | some slug =>
      { projects := st.projects ++ (match st.current with
          | some c => [c]
          | none => []),
        current := some ⟨slug, "", "", []⟩,
        in_additional := false }
    | none =>
      match st.current with
      | none => st
      | some cur =>
        if sStartsWith line "    path:" then
          { st with current := some { cur with path := parse_yaml_value line },
                    in_additional := false }
        else if sStartsWith line "    repo:" then
          { st with current := some { cur with repo := parse_yaml_value line },
                    in_additional := false }
        else if pyStrip line = "additional_paths:" then
          { st with in_additional := true }
        else if st.in_additional ∧ sStartsWith line "      - " then
          { st with current := some { cur with additional_paths :=
              cur.additional_paths ++ [pyStrip (removePrefixPy "- " (pyStrip line))] } }
        else if matchFourSpaceLower line then { st with in_additional := false }
        else st

/-- `parse_registry` applied to the text of `registry.yaml`. -/
def parseRegistryText (text : String) : List RegRecord :=
  let st := (splitLines text).foldl regStep ⟨[], none, false⟩
  st.projects ++ (match st.current with
    | some c => [c]
    | none => [])

/-! ## The generic metadata document and `_parse_project_yaml` -/

/-- A Python value produced by `_parse_project_yaml`: a string, a list of
strings, or a one-level string map. -/
inductive PyVal where
  | str (s : String)
  | list (l : List String)
  | map (m : List (String × String))
deriving DecidableEq, Repr

/-- Insertion-ordered association list standing for a Python `dict`. -/
abbrev Dict (α : Type) := List (String × α)

/-- Python `d[k] = v`: replace in place if the key exists, else append.
Dicts built from `[]` by `dictSet` have unique keys, as Python dicts do. -/
def dictSet : Dict α → String → α → Dict α
  | [], k, v => [(k, v)]
  | (k0, v0) :: rest, k, v =>
    if k0 = k then (k, v) :: rest else (k0, v0) :: dictSet rest k v

/-- Python `d.get(k)`. -/
def dictGet : Dict α → String → Option α
  | [], _ => none
  | (k0, v0) :: rest, k => if k0 = k then some v0 else dictGet rest k

/-- Python `d.get(k, v0)`. -/
def dictGetD (d : Dict α) (k : String) (v0 : α) : α := (dictGet d k).getD v0

/-- Python `d.pop(k, None)` (the resulting dict). -/
def dictPop (d : Dict α) (k : String) : Dict α :=
  d.filter (fun kv => ¬ (kv.1 = k))

/-- Identifier-start class `[a-zA-Z_]` of the parser regexes. -/
def identStart (c : Char) : Bool := c.isAlpha ∨ c = '_'

/-- Identifier-continuation class `[a-zA-Z0-9_]`. -/
def identChar (c : Char) : Bool := c.isAlphanum ∨ c = '_'

/-- The regex `^([a-zA-Z_][a-zA-Z0-9_]*)\s*:\s*(.*)` of `_parse_project_yaml`,
returning the key and the raw inline value. -/
def matchTopLevel (line : String) : Option (String × String) :=
  match line.toList with
  | [] => none
  | c :: rest =>
    if identStart c then
      let identTail := rest.takeWhile identChar
      match (rest.drop identTail.length).dropWhile isPySpace with
      | ':' :: tl => some (⟨c :: identTail⟩, ⟨tl.dropWhile isPySpace⟩)
      | _ => none
    else none

/-- The regex `^  [a-zA-Z_]` guarding map entries. -/
def matchMapEntryLine (line : String) : Bool :=
  match line.toList with
  | ' ' :: ' ' :: c :: _ => identStart c
  | _ => false

/-- Key of a map entry line: `line.strip().partition(":")[0].strip()`. -/
def mapEntryKey (line : String) : String :=
  pyStrip ⟨partBeforeChar ':' (pyStrip line).toList⟩

/-- Value of a map entry line:
`partition(":")[2].strip().strip('"').strip("'")`. -/
def mapEntryVal (line : String) : String :=
  stripQV (pyStrip ⟨partAfterChar ':' (pyStrip line).toList⟩)

/-- A block list item:
`line.strip().removeprefix("- ").strip().strip('"').strip("'")`. -/
def listItemVal (line : String) : String :=
  stripQV (pyStrip (removePrefixPy "- " (pyStrip line)))

/-- Inline list items of `[a, b]`: split the bracket interior on commas,
keep nonblank items stripped of whitespace and quotes. -/
def parseInlineList (val : String) : List String :=
  ((splitChar ',' ((val.toList.drop 1).dropLast)).map
      (fun l => (⟨l⟩ : String))).filterMap
    (fun i => if pyStrip i = "" then none else some (stripQV (pyStrip i)))

/-- Loop state of `_parse_project_yaml`. -/
structure DocState where
  result : Dict PyVal
  current_key : String
  current_map : Option (Dict String)
  current_list : Option (List String)
  in_multiline : Bool
  multiline_lines : List String

/-- The part of the `_parse_project_yaml` loop body after the multiline
continuation check (the rstripped line is already in hand). -/
def docStepMain (st : DocState) (line : String) : DocState :=
  let st :=
    if st.current_map.isSome ∧ ¬ line = "" ∧ ¬ sStartsWith line " " then
      { st with result := dictSet st.result st.current_key (PyVal.map (st.current_map.getD [])),
                current_map := none }
    else st
  let st :=
    if st.current_list.isSome ∧ ¬ line = "" ∧ ¬ sStartsWith line " " then
      { st with result := dictSet st.result st.current_key (PyVal.list (st.current_list.getD [])),
                current_list := none }
    else st
  if pyStrip line = "" ∨ sStartsWith (pyStrip line) "#" then st
  else if st.current_map.isSome ∧ matchMapEntryLine line then
    { st with current_map := some (dictSet (st.current_map.getD [])
        (mapEntryKey line) (mapEntryVal line)) }
  else if st.current_list.isSome ∧ sStartsWith line "  - " then
    { st with current_list := some ((st.current_list.getD []) ++ [listItemVal line]) }
  else
    match matchTopLevel line with
    | some (key, rawval) =>
      let val := pyStrip rawval
      if val = "|" then
        { st with current_key := key, in_multiline := true, multiline_lines := [] }
      else if val = "" then
        { st with current_key := key, current_map := some [], current_list := none }
      else if sStartsWith val "[" ∧ sEndsWith val "]" then
        { st with current_key := key,
                  result := dictSet st.result key (PyVal.list (parseInlineList val)) }
      else
        { st with current_key := key,
                  result := dictSet st.result key (PyVal.str (stripQV val)) }
    | none =>
      if st.current_map = some [] ∧ sStartsWith line "  - " then
        { st with current_list := some [listItemVal line], current_map := none }
      else st

/-- One iteration of the `_parse_project_yaml` line loop. -/
def docStep (st : DocState) (raw_line : String) : DocState :=
  let line := pyRStrip raw_line
  if st.in_multiline ∧ (sStartsWith line "  " ∨ pyStrip line = "") then
    { st with multiline_lines := st.multiline_lines ++
        [if sStartsWith line "  " then sDrop line 2 else ""] }
  else
    let st :=
      if st.in_multiline then
        { st with result := dictSet st.result st.current_key
                    (PyVal.str (rstripNL (joinNL st.multiline_lines))),
                  in_multiline := false, multiline_lines := [] }
      else st
    docStepMain st line

/-- `_parse_project_yaml`: fold the line loop, then flush trailing state in
source order (multiline, map, list). -/
def parseProjectYaml (text : String) : Dict PyVal :=
  let st := (splitLines text).foldl docStep ⟨[], "", none, none, false, []⟩
  let st :=
    if st.in_multiline then
      { st with result := dictSet st.result st.current_key
                  (PyVal.str (rstripNL (joinNL st.multiline_lines))) }
    else st
  let st :=
    match st.current_map with
    | some m => { st with result := dictSet st.result st.current_key (PyVal.map m) }
    | none => st
  match st.current_list with
  | some l => dictSet st.result st.current_key (PyVal.list l)
  | none => st.result

/-! ## Paths and the abstract filesystem

A `PyPath` is a parsed `pathlib.Path`: an absolute flag plus the non-empty,
non-`.` segments (POSIX rules). `Path.resolve()` (which consults the real
filesystem to chase symlinks), `Path.is_dir()` and `Path.home()` are the three
filesystem effects the resolver uses; they are abstracted into `FS`, so
properties proved for every `FS` hold under arbitrary symlink layouts. -/

/-- A parsed `pathlib` path: absolute flag and segments (`..` kept). -/
structure PyPath where
  absolute : Bool
  segs : List String
deriving DecidableEq, Repr

/-- Python `Path(s)` for POSIX: absolute iff it starts with `/`; empty and
`.` segments are dropped, `..` segments kept. -/
def parsePath (s : String) : PyPath :=
  { absolute := sStartsWith s "/",
    segs := ((splitChar '/' s.toList).map (fun l => (⟨l⟩ : String))).filter
      (fun seg => ¬ (seg = "" ∨ seg = ".")) }

/-- The filesystem interface used by the resolver: `resolve` is
`Path.resolve()` returning the canonical absolute segments, `isDir` is
`Path.is_dir()` on such segments, and `home` is the home directory. -/
structure FS where
  resolve : PyPath → List String
  isDir : List String → Bool
  home : List String

/-- Python `expand_path`: expand a leading `~` to the home directory,
otherwise parse the string as a path (resolution happens at call sites). -/
def expand_path (fs : FS) (p : String) : PyPath :=
  if sStartsWith p "~/" ∨ p = "~" then ⟨true, fs.home ++ (parsePath (sDrop p 1)).segs⟩
  else parsePath p

/-- Python `root / rel` on a canonical absolute `root`: an absolute `rel`
replaces the root, otherwise the parts are concatenated (no collapsing). -/
def joinPy (root : List String) (rel : String) : PyPath :=
  let r := parsePath rel
  if r.absolute then r else ⟨true, root ++ r.segs⟩

/-- Whether `root` is an initial run of `target`'s segments:
`target.is_relative_to(root)` for two canonical absolute paths. -/
def segsWithin : List String → List String → Bool
  | [], _ => true
  | _ :: _, [] => false
  | r :: rs, t :: ts => if r = t then segsWithin rs ts else false

/-- Python `len(p.parts)` for a canonical absolute path (`/` is a part). -/
def depthParts (p : List String) : Int := (p.length : Int) + 1

/-- Lexical `..` collapsing against the root, for symlink-free filesystems. -/
def collapseAux : List String → List String → List String
  | acc, [] => acc.reverse
  | acc, s :: rest =>
    if s = ".." then collapseAux (acc.drop 1) rest else collapseAux (s :: acc) rest

/-- Canonical segments of a path on a symlink-free filesystem whose working
directory is `/`. -/
def collapseSegs (p : PyPath) : List String := collapseAux [] p.segs

/-- A concrete symlink-free filesystem whose directories are `dirs`. -/
def mkFS (dirs : List (List String)) : FS :=
  { resolve := collapseSegs, isDir := fun p => dirs.contains p, home := ["home", "dev"] }

/-! ## Environment, cache merge and slug lookup -/

/-- The file contents the registry module reads: the registry file (`none`
when absent) and, per slug, the cached metadata file. -/
structure PyEnv where
  registryText : Option String
  cacheText : String → Option String

/-- `parse_registry`: absent file yields the empty list. -/
def parse_registry (env : PyEnv) : List RegRecord :=
  match env.registryText with
  | none => []
  | some t => parseRegistryText t

/-- `read_project_cache`: parse the cached yaml when the file exists. -/
def read_project_cache (env : PyEnv) (slug : String) : Option (Dict PyVal) :=
  (env.cacheText slug).map parseProjectYaml

/-- A registry record as the Python dict `parse_registry` builds. -/
def baseProj (r : RegRecord) : Dict PyVal :=
  [("slug", PyVal.str r.slug), ("path", PyVal.str r.path),
   ("repo", PyVal.str r.repo), ("additional_paths", PyVal.list r.additional_paths)]

/-- `cache.pop("_cache_meta", None)` followed by `proj.update(cache)`. -/
def mergeCache (base : Dict PyVal) (cache : Dict PyVal) : Dict PyVal :=
  (dictPop cache "_cache_meta").foldl (fun d kv => dictSet d kv.1 kv.2) base

/-- `get_all_projects`: each registry record merged with its cached metadata
(a missing or empty cache leaves the record unchanged). -/
def get_all_projects (env : PyEnv) : List (Dict PyVal) :=
  (parse_registry env).map (fun r =>
    match read_project_cache env r.slug with
    | none => baseProj r
    | some cache => if cache.isEmpty then baseProj r else mergeCache (baseProj r) cache)

/-- `find_project_by_slug`: first merged record whose `slug` value equals the
given slug (Python `p.get("slug") == slug`). -/
def find_project_by_slug (env : PyEnv) (slug : String) : Option (Dict PyVal) :=
  (get_all_projects env).find? (fun p => dictGet p "slug" = some (PyVal.str slug))

/-! ## `resolve_project_path` -/

/-- Python truthiness of the values `_parse_project_yaml` produces. -/
def pyTruthy : PyVal → Bool
  | PyVal.str s => ¬ s = ""
  | PyVal.list l => ¬ l = []
  | PyVal.map m => ¬ m = []

/-- The failure kinds of the resolution layer. `typeError` is the
`TypeError`/`AttributeError` Python raises in `expand_path` when a cached
merge left a truthy non-string under `path`; the four `ValueError` kinds
correspond to the messages raised in `resolve_project_path`. -/
inductive ResolveErr where
  | projectNotFound
  | missingPath
  | invalidPath
  | pathBoundary
  | typeError
deriving DecidableEq, Repr

/-- `resolve_project_path(slug, relative_path)`: find the merged record,
require a configured path and an existing root directory, join and resolve
the relative path, and reject results outside the root. -/
def resolve_project_path (fs : FS) (env : PyEnv) (slug relative_path : String) :
    Except ResolveErr (List String) :=
  match find_project_by_slug env slug with
  | none => Except.error ResolveErr.projectNotFound
  | some project =>
    if project.isEmpty then Except.error ResolveErr.projectNotFound
    else
      match dictGetD project "path" (PyVal.str "") with
      | PyVal.str s =>
        if ¬ pyTruthy (PyVal.str s) then Except.error ResolveErr.missingPath
        else if ¬ fs.isDir (fs.resolve (expand_path fs s)) then Except.error ResolveErr.invalidPath
        else if ¬ segsWithin (fs.resolve (expand_path fs s))
            (fs.resolve (joinPy (fs.resolve (expand_path fs s)) relative_path)) then
          Except.error ResolveErr.pathBoundary
        else Except.ok (fs.resolve (joinPy (fs.resolve (expand_path fs s)) relative_path))
      | v => if ¬ pyTruthy v then Except.error ResolveErr.missingPath
             else Except.error ResolveErr.typeError

/-! ## `find_project_for_path` -/

/-- Iterating a merged `additional_paths` value as Python `for` does: a list
yields its items, a string its characters, a dict its keys. -/
def pyIterVal : PyVal → List String
  | PyVal.str s => s.toList.map (fun c => (⟨[c]⟩ : String))
  | PyVal.list l => l
  | PyVal.map m => m.map (fun kv => kv.1)

/-- `proj.get("additional_paths", [])` as an iteration sequence. -/
def additionalOf (proj : Dict PyVal) : List String :=
  pyIterVal (dictGetD proj "additional_paths" (PyVal.list []))

/-- Outcome of scanning one record: an exact match returns it immediately,
otherwise the best-match accumulator advances. -/
inductive ScanRes where
  | found (p : Dict PyVal)
  | cont (best : Option (Dict PyVal)) (bestDepth : Int)

/-- The `for ap_str in proj.get("additional_paths", [])` loop: return the
record on an exact match, otherwise keep the deepest ancestor seen. -/
def scanAdditional (fs : FS) (target : List String) (proj : Dict PyVal) :
    List String → Option (Dict PyVal) → Int → ScanRes
  | [], best, bestd => ScanRes.cont best bestd
  | ap_str :: rest, best, bestd =>
    let ap := fs.resolve (expand_path fs ap_str)
    if target = ap then ScanRes.found proj
    else if segsWithin ap target ∧ bestd < depthParts ap then
      scanAdditional fs target proj rest (some proj) (depthParts ap)
    else scanAdditional fs target proj rest best bestd

/-- Processing of one record in the `find_project_for_path` loop. `none`
stands for the `TypeError` raised on a truthy non-string `path`. -/
def recordScan (fs : FS) (target : List String) (proj : Dict PyVal)
    (best : Option (Dict PyVal)) (bestd : Int) : Option ScanRes :=
  match dictGet proj "path" with
  | none => some (ScanRes.cont best bestd)
  | some v =>
    if ¬ pyTruthy v then some (ScanRes.cont best bestd)
    else
      match v with
      | PyVal.str s =>
        let p := fs.resolve (expand_path fs s)
        if target = p then some (ScanRes.found proj)
        else if segsWithin p target ∧ bestd < depthParts p then
          some (scanAdditional fs target proj (additionalOf proj) (some proj) (depthParts p))
        else some (scanAdditional fs target proj (additionalOf proj) best bestd)
      | _ => none

/-- The record loop of `find_project_for_path`. -/
def fppLoop (fs : FS) (target : List String) :
    List (Dict PyVal) → Option (Dict PyVal) → Int → Except ResolveErr (Option (Dict PyVal))
  | [], best, _ => Except.ok best
  | proj :: rest, best, bestd =>
    match recordScan fs target proj best bestd with
    | none => Except.error ResolveErr.typeError
    | some (ScanRes.found pr) => Except.ok (some pr)
    | some (ScanRes.cont b d) => fppLoop fs target rest b d

/-- `find_project_for_path(target_path)`: resolve the target and scan the
merged records with exact-match early return and deepest-ancestor fallback
(`best_depth` starts at `-1`). -/
def find_project_for_path (fs : FS) (env : PyEnv) (target_path : String) :
    Except ResolveErr (Option (Dict PyVal)) :=
  let projects := get_all_projects env
  if projects.isEmpty then Except.ok none
  else fppLoop fs (fs.resolve (parsePath target_path)) projects none (-1)

/-! ## Characterizing definitions and concrete environments

Best-match bookkeeping for `find_project_for_path`, and the concrete
registries, caches and filesystems the theorems below evaluate. -/

instance {e a : Type} [DecidableEq e] [DecidableEq a] : DecidableEq (Except e a) := fun x y =>
  match x, y with
  | Except.error u, Except.error v =>
    if h : u = v then isTrue (by rw [h]) else isFalse (fun hc => h (by cases hc; rfl))
  | Except.ok u, Except.ok v =>
    if h : u = v then isTrue (by rw [h]) else isFalse (fun hc => h (by cases hc; rfl))
  | Except.error _, Except.ok _ => isFalse (fun hc => Except.noConfusion hc)
  | Except.ok _, Except.error _ => isFalse (fun hc => Except.noConfusion hc)

def c1env : PyEnv :=
  ⟨some "projects:\n  widget:\n    path: /home/dev/widget\n", fun _ => none⟩

def c1fs : FS := mkFS [["home", "dev", "widget"]]

def c1proj : Dict PyVal := baseProj ⟨"widget", "/home/dev/widget", "", []⟩

def c3Text : String :=
  "projects:\n  widget:\n    path: \"/home/dev/widget\"\n    repo: \"git@example.com:acme/widget.git\"\n    additional_paths:\n      - \"/home/dev/widget-docs\"\n"

def c6Text : String :=
  "name: Widget\nsummary: \"A sample widget\"\ntags: [a, b]\nlinks:\n  repo: https://example.com\nnotes: |\n  line one\n  line two"

/-- A well-formed slug: nonempty and drawn from `[a-zA-Z0-9_-]`. -/
def slugOK (s : String) : Bool :=
  if s.toList = [] then false else s.toList.all slugChar

/-- Invariant of the `parse_registry` loop: every emitted or in-progress
record has a well-formed slug (it came from a matched slug line). -/
def regInv (st : RegState) : Prop :=
  (∀ r ∈ st.projects, slugOK r.slug = true) ∧
  (∀ r, st.current = some r → slugOK r.slug = true)

def c8env : PyEnv :=
  ⟨some "projects:\n  alpha:\n    path: /a\n",
   fun s => if s = "alpha" then some "slug: beta\n" else none⟩

def c10env : PyEnv :=
  ⟨some "projects:\n  widget:\n    path: /old\n",
   fun s => if s = "widget" then some "path: /new/root\nname: W\n" else none⟩

/-- Python `max`-shaped combination used by the `depth > best_depth` updates. -/
def maxI (a b : Int) : Int := if a < b then b else a

/-- Whether the record wins by exact match: its `path` is a nonempty string
whose canonical form equals the target, or some additional path does. -/
def exactMatches (fs : FS) (target : List String) (proj : Dict PyVal) : Bool :=
  match dictGet proj "path" with
  | some (PyVal.str s) =>
    if s = "" then false
    else if target = fs.resolve (expand_path fs s) then true
    else (additionalOf proj).any (fun ap => decide (target = fs.resolve (expand_path fs ap)))
  | _ => false

/-- No truthy non-string `path` value (which would raise `TypeError`). -/
def pathTypeOk (proj : Dict PyVal) : Bool :=
  match dictGet proj "path" with
  | some (PyVal.list l) => l.isEmpty
  | some (PyVal.map m) => m.isEmpty
  | _ => true

/-- Every record's `path` is absent, falsy, or a string. -/
def strPathsOnly (projects : List (Dict PyVal)) : Bool := projects.all pathTypeOk

/-- The candidate roots the loop considers for a record: its canonical
primary root followed by the canonical additional roots; none when the
primary path is missing or falsy (such records are skipped entirely). -/
def projCandRoots (fs : FS) (proj : Dict PyVal) : List (List String) :=
  match dictGet proj "path" with
  | some (PyVal.str s) =>
    if s = "" then []
    else fs.resolve (expand_path fs s) ::
      (additionalOf proj).map (fun ap => fs.resolve (expand_path fs ap))
  | _ => []

/-- Depths (`len(parts)`) of the record's candidate roots that are ancestors
of the target. -/
def matchDepths (fs : FS) (target : List String) (proj : Dict PyVal) : List Int :=
  ((projCandRoots fs proj).filter (fun rt => segsWithin rt target)).map depthParts

/-- Maximum of a depth list, seeded with the loop's initial `-1`. -/
def maxDepth (l : List Int) : Int := l.foldl maxI (-1)

/-- One record's effect on the `(best_match, best_depth)` accumulator when it
has no exact match. -/
def stepBest (fs : FS) (target : List String)
    (bd : Option (Dict PyVal) × Int) (proj : Dict PyVal) : Option (Dict PyVal) × Int :=
  if bd.2 < maxDepth (matchDepths fs target proj) then
    (some proj, maxDepth (matchDepths fs target proj))
  else bd

/-- Depth list contributed by a sequence of additional paths. -/
def apMatchDepths (fs : FS) (target : List String) (aps : List String) : List Int :=
  ((aps.map (fun ap => fs.resolve (expand_path fs ap))).filter
    (fun rt => segsWithin rt target)).map depthParts

/-- The deepest matching candidate depth over all records (`-1` when no
candidate root is an ancestor of the target). -/
def bestCandDepth (fs : FS) (target : List String)
    (projects : List (Dict PyVal)) : Int :=
  projects.foldl (fun a proj => maxI a (maxDepth (matchDepths fs target proj))) (-1)

def c2env : PyEnv :=
  ⟨some "projects:\n  alpha:\n    path: /x\n    additional_paths:\n      - /a/b\n  beta:\n    path: /a/b\n",
   fun _ => none⟩

def c2envB : PyEnv :=
  ⟨some "projects:\n  beta:\n    path: /a/b\n  alpha:\n    path: /x\n    additional_paths:\n      - /a/b\n",
   fun _ => none⟩

def c7env : PyEnv :=
  ⟨some "projects:\n  alpha:\n    additional_paths:\n      - /a/b\n  beta:\n    path: /a\n",
   fun _ => none⟩

def c7envB : PyEnv :=
  ⟨some "projects:\n  alpha:\n    path: /z\n    additional_paths:\n      - /a/b\n  beta:\n    path: /a\n",
   fun _ => none⟩

/-! ## Basic lemmas -/

theorem dictGet_ne_nil {α : Type} {d : Dict α} {k : String} {v : α}
    (h : dictGet d k = some v) : ¬ d = [] := by
  cases d with
  | nil => simp [dictGet] at h
  | cons kv rest => simp

theorem find_by_slug_slug {env : PyEnv} {slug : String} {proj : Dict PyVal}
    (h : find_project_by_slug env slug = some proj) :
    dictGet proj "slug" = some (PyVal.str slug) := by
  have := List.find?_some h
  exact of_decide_eq_true this

theorem find_by_slug_ne_nil {env : PyEnv} {slug : String} {proj : Dict PyVal}
    (h : find_project_by_slug env slug = some proj) : proj.isEmpty = false := by
  have hs := find_by_slug_slug h
  have := dictGet_ne_nil hs
  cases proj with
  | nil => exact absurd rfl this
  | cons kv rest => rfl

theorem pyTruthy_str_of_ne {s : String} (h : ¬ s = "") :
    pyTruthy (PyVal.str s) = true := by
  simp [pyTruthy, h]

/-- Shape of every successful resolution: the returned path is exactly the
canonicalized join of the relative path onto the canonicalized configured
root, and it lies within that root. -/
theorem resolve_ok_shape (fs : FS) (env : PyEnv) (slug rel : String)
    (p : List String) (h : resolve_project_path fs env slug rel = Except.ok p) :
    ∃ proj s, find_project_by_slug env slug = some proj ∧
      dictGetD proj "path" (PyVal.str "") = PyVal.str s ∧
      p = fs.resolve (joinPy (fs.resolve (expand_path fs s)) rel) ∧
      segsWithin (fs.resolve (expand_path fs s)) p = true := by
  cases hf : find_project_by_slug env slug with
  | none => simp only [resolve_project_path, hf] at h; exact absurd h (by simp)
  | some proj =>
    simp only [resolve_project_path, hf] at h
    split at h
    · exact absurd h (by simp)
    · split at h
      · next s heq =>
          split_ifs at h with h1 h2 h3
          simp at h
          exact ⟨proj, s, rfl, heq, h.symm, by rw [← h]; exact h3⟩
      · next v hne heq =>
          split_ifs at h

/-- Dichotomy of `resolve_project_path` once the record is found, configured
and its root exists: boundary violation or the in-root canonical join. -/
theorem resolve_cases (fs : FS) (env : PyEnv) (slug rel : String)
    (proj : Dict PyVal) (s : String)
    (hfind : find_project_by_slug env slug = some proj)
    (hpath : dictGetD proj "path" (PyVal.str "") = PyVal.str s)
    (hne : ¬ s = "")
    (hdir : fs.isDir (fs.resolve (expand_path fs s)) = true) :
    resolve_project_path fs env slug rel = Except.error ResolveErr.pathBoundary ∨
    resolve_project_path fs env slug rel =
      Except.ok (fs.resolve (joinPy (fs.resolve (expand_path fs s)) rel)) := by
  have he : proj.isEmpty = false := find_by_slug_ne_nil hfind
  simp only [resolve_project_path, hfind, hpath, he]
  rw [if_neg (by simp)]
  rw [if_neg (by simp [pyTruthy_str_of_ne hne])]
  rw [if_neg (by simp [hdir])]
  by_cases hw : segsWithin (fs.resolve (expand_path fs s))
      (fs.resolve (joinPy (fs.resolve (expand_path fs s)) rel))
  · right; rw [if_neg (by simp [hw])]
  · left; rw [if_pos (by simp [hw])]

/-! ## Claim C1: the boundary invariant of `resolve_project_path` -/

/-- C1: for every filesystem (hence arbitrary symlink indirection), every
environment, and every relative path (including `..` segments and
absolute-looking fragments), once the record is found with a configured,
existing primary root, `resolve_project_path` either fails with the
`PathBoundaryViolation` kind or returns exactly the canonicalized join of
the relative path onto the canonical root — a path equal to or a descendant
of the canonical form of the record's primary path. Nothing is clamped: the
only successful value is the canonical join itself. -/
theorem resolve_subpath_boundary_invariant (fs : FS) (env : PyEnv) (slug rel : String)
    (proj : Dict PyVal) (s : String)
    (hfind : find_project_by_slug env slug = some proj)
    (hpath : dictGetD proj "path" (PyVal.str "") = PyVal.str s)
    (hne : ¬ s = "")
    (hdir : fs.isDir (fs.resolve (expand_path fs s)) = true) :
    (∀ p, resolve_project_path fs env slug rel = Except.ok p →
        p = fs.resolve (joinPy (fs.resolve (expand_path fs s)) rel) ∧
        segsWithin (fs.resolve (expand_path fs s)) p = true) ∧
    (resolve_project_path fs env slug rel = Except.error ResolveErr.pathBoundary ∨
     resolve_project_path fs env slug rel =
       Except.ok (fs.resolve (joinPy (fs.resolve (expand_path fs s)) rel))) := by
  constructor
  · intro p hp
    obtain ⟨proj2, s2, hf2, hp2, hshape, hwithin⟩ := resolve_ok_shape fs env slug rel p hp
    have hpj : proj2 = proj := by rw [hfind] at hf2; exact (Option.some.inj hf2).symm
    subst hpj
    have hs : s2 = s := by
      rw [hpath] at hp2
      exact (PyVal.str.injEq _ _).mp hp2.symm
    subst hs
    exact ⟨hshape, hwithin⟩
  · exact resolve_cases fs env slug rel proj s hfind hpath hne hdir

/-- Witness for C1 at a concrete registry, filesystem and relative path. -/
theorem resolve_subpath_boundary_invariant_witness :
    resolve_project_path c1fs c1env "widget" "src/main.py" =
      Except.ok ["home", "dev", "widget", "src", "main.py"] ∧
    segsWithin (c1fs.resolve (expand_path c1fs "/home/dev/widget"))
      ["home", "dev", "widget", "src", "main.py"] = true := by
  have h := (resolve_subpath_boundary_invariant c1fs c1env "widget" "src/main.py" c1proj
    "/home/dev/widget" (by decide) (by decide) (by decide) (by decide)).2
  rcases h with h | h
  · exact absurd h (by decide)
  · rw [h]; exact ⟨by decide, by decide⟩

/-! ## Claim C3: the concrete registry scenario -/

/-- C3 counterexample: on the spec's concrete registry text the parser does
NOT strip the surrounding double quotes from the additional-path item, so
the claimed record (with `additional_paths=[/home/dev/widget-docs]`) is not
what `parse_registry` yields. -/
theorem registry_scenario_quotes_counterexample :
    ¬ parseRegistryText c3Text =
      [⟨"widget", "/home/dev/widget", "git@example.com:acme/widget.git",
        ["/home/dev/widget-docs"]⟩] := by decide

/-- C3 amended: the scenario text parses to exactly one record with
slug `widget`, quote-stripped `path` and `repo`, but an additional-path item
that keeps its surrounding double quotes (the additional-path branch of
`parse_registry` applies no quote stripping). -/
theorem registry_scenario_parse :
    parseRegistryText c3Text =
      [⟨"widget", "/home/dev/widget", "git@example.com:acme/widget.git",
        ["\"/home/dev/widget-docs\""]⟩] := by decide

/-! ## Claim C5: retroactive list conversion -/

/-- C5: a top-level key with an empty inline value followed by two-space
indented `- ` items parses to a `List` bound to that key, not to an empty
`Map`: the first item line retroactively converts the pending empty map. -/
theorem empty_value_list_retroconversion :
    parseProjectYaml "key:\n  - x\n  - y" = [("key", PyVal.list ["x", "y"])] ∧
    parseProjectYaml "tags:\n  - alpha\n  - beta" =
      [("tags", PyVal.list ["alpha", "beta"])] := by
  exact ⟨by decide, by decide⟩

/-! ## Claim C6: the concrete metadata scenario -/

/-- C6: the spec's concrete metadata text parses to exactly the claimed
document; the multiline block joins its stripped-indent lines with a
newline. -/
theorem metadata_scenario_parse :
    parseProjectYaml c6Text =
      [("name", PyVal.str "Widget"),
       ("summary", PyVal.str "A sample widget"),
       ("tags", PyVal.list ["a", "b"]),
       ("links", PyVal.map [("repo", "https://example.com")]),
       ("notes", PyVal.str "line one\nline two")] := by decide

/-! ## Claim C4: blank and comment lines versus open collections -/

/-- C4 counterexample: a comment line at column zero DOES close the open map
(the flush runs before the comment check), and the entry line after it is
dropped instead of accumulating into the same collection. -/
theorem comment_close_counterexample :
    parseProjectYaml "links:\n  a: x\n# c\n  b: y" =
      [("links", PyVal.map [("a", "x")])] ∧
    ¬ parseProjectYaml "links:\n  a: x\n# c\n  b: y" =
      [("links", PyVal.map [("a", "x"), ("b", "y")])] := by
  exact ⟨by decide, by decide⟩

/-- C4 amended: outside a multiline block, a blank line, or a comment line
whose `#` is preceded by at least one space, leaves the parser state
completely unchanged — so it closes no open MAP or LIST and later entry
lines still accumulate into the same collection. (A comment at column zero,
by contrast, flushes the open collection; see the counterexample.) -/
theorem blank_comment_preserve_state (st : DocState) (raw : String)
    (hm : st.in_multiline = false)
    (hcond : pyRStrip raw = "" ∨
      (sStartsWith (pyRStrip raw) " " = true ∧
       sStartsWith (pyStrip (pyRStrip raw)) "#" = true)) :
    docStep st raw = st := by
  rcases hcond with hb | ⟨hsp, hcm⟩
  · simp [docStep, docStepMain, hm, hb, show pyStrip "" = "" from by decide]
  · simp [docStep, docStepMain, hm, hsp, hcm]

/-- Witness for C4 on a concrete open-map state and an indented comment. -/
theorem blank_comment_preserve_state_witness :
    docStep ⟨[], "links", some [("a", "x")], none, false, []⟩ "  # note" =
      ⟨[], "links", some [("a", "x")], none, false, []⟩ :=
  blank_comment_preserve_state ⟨[], "links", some [("a", "x")], none, false, []⟩
    "  # note" rfl (Or.inr ⟨by decide, by decide⟩)

/-! ## Claim C9: totality and best-effort behavior of `parse_registry` -/

theorem matchSlugLine_ok {line s : String} (h : matchSlugLine line = some s) :
    slugOK s = true := by
  unfold matchSlugLine at h
  split at h
  · next rest heq0 =>
    split at h
    · next tl heq =>
      split at h
      · next hcond =>
        cases h
        have hne := hcond.1
        simp only [slugOK]
        rw [if_neg (by simpa using hne)]
        simp only [List.all_eq_true]
        intro c hc
        exact List.mem_takeWhile_imp hc
      · exact absurd h (by simp)
    · exact absurd h (by simp)
  · exact absurd h (by simp)

theorem regStep_inv (st : RegState) (line : String) (h : regInv st) :
    regInv (regStep st line) := by
  obtain ⟨h1, h2⟩ := h
  simp only [regStep]
  split
  · exact ⟨h1, h2⟩
  · split
    · exact ⟨h1, h2⟩
    · split
      · next slug heq =>
        refine ⟨?_, ?_⟩
        · intro r hr
          rcases List.mem_append.mp hr with hr | hr
          · exact h1 r hr
          · cases hc : st.current with
            | none => rw [hc] at hr; simp at hr
            | some c =>
              rw [hc] at hr
              simp only [List.mem_singleton] at hr
              rw [hr]
              exact h2 c hc
        · intro r hr
          cases hr
          exact matchSlugLine_ok heq
      · split
        · exact ⟨h1, h2⟩
        · next cur hcur =>
          split_ifs with hc1 hc2 hc3 hc4 hc5
          · exact ⟨h1, fun r hr => by cases hr; exact h2 cur hcur⟩
          · exact ⟨h1, fun r hr => by cases hr; exact h2 cur hcur⟩
          · exact ⟨h1, h2⟩
          · exact ⟨h1, fun r hr => by cases hr; exact h2 cur hcur⟩
          · exact ⟨h1, h2⟩
          · exact ⟨h1, h2⟩

theorem regFold_inv (lines : List String) (st : RegState) (h : regInv st) :
    regInv (lines.foldl regStep st) := by
  induction lines generalizing st with
  | nil => exact h
  | cons l rest ih => exact ih (regStep st l) (regStep_inv st l h)

/-- C9: an absent registry file parses to the empty record list (for every
cache state), and on every registry text whatsoever the parser returns a
record list in which each record carries a well-formed slug — malformed
lines never produce a record, they are skipped; no code path fails. -/
theorem registry_parse_total :
    (∀ f : String → Option String, parse_registry ⟨none, f⟩ = []) ∧
    (∀ text : String, ∀ r ∈ parseRegistryText text, slugOK r.slug = true) := by
  constructor
  · intro f; rfl
  · intro text r hr
    have hinv : regInv ((splitLines text).foldl regStep ⟨[], none, false⟩) :=
      regFold_inv _ _ ⟨by intro r hr; simp at hr, by intro r hr; simp at hr⟩
    unfold parseRegistryText at hr
    rcases List.mem_append.mp hr with hr | hr
    · exact hinv.1 r hr
    · cases hc : ((splitLines text).foldl regStep ⟨[], none, false⟩).current with
      | none => rw [hc] at hr; simp at hr
      | some c =>
        rw [hc] at hr
        simp only [List.mem_singleton] at hr
        rw [hr]
        exact hinv.2 c hc

/-- Witness for C9: a parsed record from a concrete text has a valid slug. -/
theorem registry_parse_total_witness : slugOK "abc" = true :=
  registry_parse_total.2 "projects:\n  abc:\n    path: /p\n" ⟨"abc", "/p", "", []⟩
    (by decide)

/-! ## Claim C8: the error taxonomy of `resolve_project_path` -/

theorem resolve_notFound_eq (fs : FS) (env : PyEnv) (slug rel : String)
    (hf : find_project_by_slug env slug = none) :
    resolve_project_path fs env slug rel = Except.error ResolveErr.projectNotFound := by
  simp [resolve_project_path, hf]

theorem resolve_missingPath_eq (fs : FS) (env : PyEnv) (slug rel : String)
    (proj : Dict PyVal) (hf : find_project_by_slug env slug = some proj)
    (hfalsy : pyTruthy (dictGetD proj "path" (PyVal.str "")) = false) :
    resolve_project_path fs env slug rel = Except.error ResolveErr.missingPath := by
  have hne := find_by_slug_ne_nil hf
  simp only [resolve_project_path, hf]
  rw [if_neg (by simp [hne])]
  split
  · next s heq => rw [heq] at hfalsy; rw [if_pos (by simp [hfalsy])]
  · rw [if_pos (by simp [hfalsy])]

theorem resolve_invalidPath_eq (fs : FS) (env : PyEnv) (slug rel : String)
    (proj : Dict PyVal) (s : String)
    (hf : find_project_by_slug env slug = some proj)
    (hv : dictGetD proj "path" (PyVal.str "") = PyVal.str s)
    (hs : ¬ s = "")
    (hd : fs.isDir (fs.resolve (expand_path fs s)) = false) :
    resolve_project_path fs env slug rel = Except.error ResolveErr.invalidPath := by
  have hne := find_by_slug_ne_nil hf
  simp only [resolve_project_path, hf, hv]
  rw [if_neg (by simp [hne])]
  rw [if_neg (by simp [pyTruthy_str_of_ne hs])]
  rw [if_pos (by simp [hd])]

theorem resolve_typeError_list_eq (fs : FS) (env : PyEnv) (slug rel : String)
    (proj : Dict PyVal) (l : List String)
    (hf : find_project_by_slug env slug = some proj)
    (hv : dictGetD proj "path" (PyVal.str "") = PyVal.list l)
    (ht : pyTruthy (PyVal.list l) = true) :
    resolve_project_path fs env slug rel = Except.error ResolveErr.typeError := by
  have hne := find_by_slug_ne_nil hf
  simp only [resolve_project_path, hf, hv]
  rw [if_neg (by simp [hne])]
  rw [if_neg (by simp [ht])]

theorem resolve_typeError_map_eq (fs : FS) (env : PyEnv) (slug rel : String)
    (proj : Dict PyVal) (m : List (String × String))
    (hf : find_project_by_slug env slug = some proj)
    (hv : dictGetD proj "path" (PyVal.str "") = PyVal.map m)
    (ht : pyTruthy (PyVal.map m) = true) :
    resolve_project_path fs env slug rel = Except.error ResolveErr.typeError := by
  have hne := find_by_slug_ne_nil hf
  simp only [resolve_project_path, hf, hv]
  rw [if_neg (by simp [hne])]
  rw [if_neg (by simp [ht])]

/-- C8 counterexample: `alpha` is a registered record (it appears in the
parsed registry), yet `resolve_project_path` fails with the
`ProjectNotFound` kind for it, because the cached metadata document merged
by `get_all_projects` overrides the record's `slug`. The claim's
"fails with ProjectNotFound exactly when the slug matches no registered
record" is therefore false. -/
theorem error_kind_counterexample :
    (parseRegistryText "projects:\n  alpha:\n    path: /a\n").map RegRecord.slug
      = ["alpha"] ∧
    resolve_project_path (mkFS [["a"]]) c8env "alpha" "f" =
      Except.error ResolveErr.projectNotFound := by
  exact ⟨by decide, by decide⟩

/-- C8 amended: the failure kinds are exact with respect to the merged
records (cached metadata may override `slug` and `path`): `ProjectNotFound`
exactly when no merged record carries the slug; `MissingPath` exactly when
the merged record is found but its merged path value is empty (falsy); and
`InvalidPath` whenever the merged path is a nonempty string whose canonical
root is not an existing directory. Every failure is a typed error value
returned to the caller. -/
theorem error_kind_taxonomy (fs : FS) (env : PyEnv) (slug rel : String) :
    (resolve_project_path fs env slug rel = Except.error ResolveErr.projectNotFound ↔
      find_project_by_slug env slug = none) ∧
    (resolve_project_path fs env slug rel = Except.error ResolveErr.missingPath ↔
      ∃ proj, find_project_by_slug env slug = some proj ∧
        pyTruthy (dictGetD proj "path" (PyVal.str "")) = false) ∧
    (∀ proj s, find_project_by_slug env slug = some proj →
      dictGetD proj "path" (PyVal.str "") = PyVal.str s → ¬ s = "" →
      fs.isDir (fs.resolve (expand_path fs s)) = false →
      resolve_project_path fs env slug rel = Except.error ResolveErr.invalidPath) := by
  cases hf : find_project_by_slug env slug with
  | none =>
    have h0 := resolve_notFound_eq fs env slug rel hf
    refine ⟨by rw [h0]; simp, by rw [h0]; simp, ?_⟩
    intro proj s hf2
    exact absurd hf2 (by simp)
  | some proj =>
    have hmem : ∀ proj2 : Dict PyVal, some proj = some proj2 → proj2 = proj :=
      fun proj2 h2 => (Option.some.inj h2).symm
    cases ht : pyTruthy (dictGetD proj "path" (PyVal.str "")) with
    | false =>
      have h0 := resolve_missingPath_eq fs env slug rel proj hf ht
      refine ⟨by rw [h0]; simp, ?_, ?_⟩
      · rw [h0]
        exact ⟨fun _ => ⟨proj, rfl, ht⟩, fun _ => rfl⟩
      · intro proj2 s2 hf2 hv2 hs2 hd2
        have := hmem proj2 hf2
        subst this
        rw [hv2] at ht
        exact absurd ht (by simp [pyTruthy, hs2])
    | true =>
      have hrhs : ¬ ∃ proj2 : Dict PyVal, some proj = some proj2 ∧
          pyTruthy (dictGetD proj2 "path" (PyVal.str "")) = false := by
        rintro ⟨proj2, hf2, ht2⟩
        have := hmem proj2 hf2
        subst this
        rw [ht] at ht2
        exact absurd ht2 (by simp)
      cases hv : dictGetD proj "path" (PyVal.str "") with
      | str s =>
        have hs : ¬ s = "" := by
          rw [hv] at ht
          intro hc
          rw [hc] at ht
          exact absurd ht (by simp [pyTruthy])
        cases hd : fs.isDir (fs.resolve (expand_path fs s)) with
        | false =>
          have h0 := resolve_invalidPath_eq fs env slug rel proj s hf hv hs hd
          refine ⟨by rw [h0]; simp, by rw [h0]; simp [ht], ?_⟩
          intro proj2 s2 hf2 hv2 hs2 hd2
          exact h0
        | true =>
          have hthird : ∀ (proj2 : Dict PyVal) (s2 : String), some proj = some proj2 →
              dictGetD proj2 "path" (PyVal.str "") = PyVal.str s2 → ¬ s2 = "" →
              fs.isDir (fs.resolve (expand_path fs s2)) = false →
              resolve_project_path fs env slug rel = Except.error ResolveErr.invalidPath := by
            intro proj2 s2 hf2 hv2 hs2 hd2
            have := hmem proj2 hf2
            subst this
            rw [hv] at hv2
            have hss : s = s2 := PyVal.str.inj hv2
            rw [← hss] at hd2
            rw [hd] at hd2
            exact absurd hd2 (by simp)
          rcases resolve_cases fs env slug rel proj s hf hv hs hd with h0 | h0
          · exact ⟨by rw [h0]; simp, by rw [h0]; simp [ht], hthird⟩
          · exact ⟨by rw [h0]; simp, by rw [h0]; simp [ht], hthird⟩
      | list l =>
        have h0 := resolve_typeError_list_eq fs env slug rel proj l hf hv (hv ▸ ht)
        refine ⟨by rw [h0]; simp, by rw [h0]; simp [ht], ?_⟩
        intro proj2 s2 hf2 hv2 hs2 hd2
        have := hmem proj2 hf2
        subst this
        rw [hv] at hv2
        exact absurd hv2 (by simp)
      | map m =>
        have h0 := resolve_typeError_map_eq fs env slug rel proj m hf hv (hv ▸ ht)
        refine ⟨by rw [h0]; simp, by rw [h0]; simp [ht], ?_⟩
        intro proj2 s2 hf2 hv2 hs2 hd2
        have := hmem proj2 hf2
        subst this
        rw [hv] at hv2
        exact absurd hv2 (by simp)

/-- Witness for C8 at a concrete environment: an unknown slug yields the
`ProjectNotFound` kind, via the taxonomy theorem. -/
theorem error_kind_taxonomy_witness :
    resolve_project_path (mkFS []) ⟨some "projects:\n  alpha:\n    path: /a\n",
      fun _ => none⟩ "nope" "x" = Except.error ResolveErr.projectNotFound :=
  (error_kind_taxonomy (mkFS []) ⟨some "projects:\n  alpha:\n    path: /a\n",
    fun _ => none⟩ "nope" "x").1.mpr (by decide)

/-! ## Claim C10: the cache merge of `get_all_projects` -/

theorem dictGet_dictSet_self {α : Type} (d : Dict α) (k : String) (v : α) :
    dictGet (dictSet d k v) k = some v := by
  induction d with
  | nil => simp [dictSet, dictGet]
  | cons kv rest ih =>
    obtain ⟨k0, v0⟩ := kv
    by_cases h : k0 = k
    · simp [dictSet, dictGet, h]
    · simp [dictSet, dictGet, h, ih]

theorem dictGet_dictSet_ne {α : Type} (d : Dict α) (k k2 : String) (v : α)
    (h : ¬ k = k2) : dictGet (dictSet d k v) k2 = dictGet d k2 := by
  induction d with
  | nil => simp [dictSet, dictGet, h]
  | cons kv rest ih =>
    obtain ⟨k0, v0⟩ := kv
    by_cases h0 : k0 = k
    · subst h0
      simp [dictSet, dictGet, h]
    · by_cases h2 : k0 = k2
      · subst h2
        simp [dictSet, dictGet, h0]
      · simp [dictSet, dictGet, h0, h2, ih]

theorem mem_of_dictGet {α : Type} {d : Dict α} {k : String} {v : α}
    (h : dictGet d k = some v) : (k, v) ∈ d := by
  induction d with
  | nil => simp [dictGet] at h
  | cons kv rest ih =>
    obtain ⟨k0, v0⟩ := kv
    by_cases h0 : k0 = k
    · subst h0
      simp only [dictGet, if_pos rfl] at h
      cases h
      exact List.mem_cons_self _ _
    · simp only [dictGet, if_neg h0] at h
      exact List.mem_cons_of_mem _ (ih h)

theorem dictGet_none_not_mem {α : Type} {d : Dict α} {k : String}
    (h : dictGet d k = none) : ∀ kv ∈ d, ¬ kv.1 = k := by
  induction d with
  | nil => intro kv hkv; simp at hkv
  | cons kv0 rest ih =>
    obtain ⟨k0, v0⟩ := kv0
    by_cases h0 : k0 = k
    · simp [dictGet, h0] at h
    · simp only [dictGet, if_neg h0] at h
      intro kv hkv
      rcases List.mem_cons.mp hkv with hkv | hkv
      · rw [hkv]; exact h0
      · exact ih h kv hkv

theorem dictGet_foldSet_not_mem {α : Type} (l : Dict α) (base : Dict α) (k : String)
    (h : ∀ kv ∈ l, ¬ kv.1 = k) :
    dictGet (l.foldl (fun d kv => dictSet d kv.1 kv.2) base) k = dictGet base k := by
  induction l generalizing base with
  | nil => rfl
  | cons kv rest ih =>
    simp only [List.foldl_cons]
    rw [ih _ (fun kv2 h2 => h kv2 (List.mem_cons_of_mem kv h2))]
    exact dictGet_dictSet_ne base kv.1 k kv.2 (h kv (List.mem_cons_self kv rest))

theorem dictGet_foldSet_mem_nodup {α : Type} (l : Dict α) (base : Dict α)
    (k : String) (v : α) (hnd : (l.map Prod.fst).Nodup) (hm : (k, v) ∈ l) :
    dictGet (l.foldl (fun d kv => dictSet d kv.1 kv.2) base) k = some v := by
  induction l generalizing base with
  | nil => simp at hm
  | cons kv rest ih =>
    obtain ⟨k0, v0⟩ := kv
    simp only [List.map_cons, List.nodup_cons] at hnd
    simp only [List.foldl_cons]
    rcases List.mem_cons.mp hm with hm | hm
    · cases hm
      rw [dictGet_foldSet_not_mem rest _ k ?_]
      · exact dictGet_dictSet_self base k v
      · intro kv2 h2 hc
        exact hnd.1 (hc ▸ List.mem_map_of_mem Prod.fst h2)
    · exact ih (dictSet base k0 v0) hnd.2 hm

theorem mergeCache_get_of_cache {base cache : Dict PyVal} {k : String} {v : PyVal}
    (hk : ¬ k = "_cache_meta") (hnd : (cache.map Prod.fst).Nodup)
    (hv : dictGet cache k = some v) :
    dictGet (mergeCache base cache) k = some v := by
  unfold mergeCache
  apply dictGet_foldSet_mem_nodup
  · exact List.Nodup.sublist (List.Sublist.map Prod.fst (List.filter_sublist cache)) hnd
  · exact List.mem_filter.mpr ⟨mem_of_dictGet hv, by simp [hk]⟩

theorem mergeCache_get_of_absent (base cache : Dict PyVal) (k : String)
    (hnone : dictGet cache k = none) :
    dictGet (mergeCache base cache) k = dictGet base k := by
  unfold mergeCache
  apply dictGet_foldSet_not_mem
  intro kv hkv
  exact dictGet_none_not_mem hnone kv (List.mem_filter.mp hkv).1

theorem mergeCache_cache_meta (base cache : Dict PyVal)
    (hbase : dictGet base "_cache_meta" = none) :
    dictGet (mergeCache base cache) "_cache_meta" = none := by
  unfold mergeCache
  rw [dictGet_foldSet_not_mem]
  · exact hbase
  · intro kv hkv
    have h2 := (List.mem_filter.mp hkv).2
    simpa using h2

theorem dictGet_baseProj_slug (r : RegRecord) :
    dictGet (baseProj r) "slug" = some (PyVal.str r.slug) := by
  simp [baseProj, dictGet]

theorem dictGet_baseProj_meta (r : RegRecord) :
    dictGet (baseProj r) "_cache_meta" = none := by
  simp [baseProj, dictGet]

/-- C10: when a registry record has a nonempty cached metadata document, the
merge in `get_all_projects` overwrites the registry-owned keys with the
cached values (here shown for `path` while `slug` stays put because the
cache does not define it), the reserved `_cache_meta` key is absent from the
merged record, every non-reserved cached key wins, and the cached `path`
becomes the project root: the boundary check of `resolve_project_path`
constrains its result to the cached root, and `find_project_for_path`
matches the cached root exactly. -/
theorem cache_merge_overrides (fs : FS) (env : PyEnv) (r : RegRecord)
    (cache : Dict PyVal) (s rel : String)
    (hreg : parse_registry env = [r])
    (hcache : read_project_cache env r.slug = some cache)
    (hnempty : cache.isEmpty = false)
    (hnd : (cache.map Prod.fst).Nodup)
    (hnoslug : dictGet cache "slug" = none)
    (hpath : dictGet cache "path" = some (PyVal.str s)) :
    get_all_projects env = [mergeCache (baseProj r) cache] ∧
    dictGet (mergeCache (baseProj r) cache) "path" = some (PyVal.str s) ∧
    dictGet (mergeCache (baseProj r) cache) "_cache_meta" = none ∧
    dictGet (mergeCache (baseProj r) cache) "slug" = some (PyVal.str r.slug) ∧
    (∀ k v, dictGet cache k = some v → ¬ k = "_cache_meta" →
      dictGet (mergeCache (baseProj r) cache) k = some v) ∧
    (¬ s = "" → ∀ p, resolve_project_path fs env r.slug rel = Except.ok p →
      segsWithin (fs.resolve (expand_path fs s)) p = true) ∧
    (¬ s = "" → ∀ tp, fs.resolve (parsePath tp) = fs.resolve (expand_path fs s) →
      find_project_for_path fs env tp =
        Except.ok (some (mergeCache (baseProj r) cache))) := by
  have hgetall : get_all_projects env = [mergeCache (baseProj r) cache] := by
    simp only [get_all_projects, hreg, List.map_cons, List.map_nil, hcache]
    rw [if_neg (by simp [hnempty])]
  have hmeta : dictGet (mergeCache (baseProj r) cache) "_cache_meta" = none :=
    mergeCache_cache_meta _ _ (dictGet_baseProj_meta r)
  have hslug : dictGet (mergeCache (baseProj r) cache) "slug" = some (PyVal.str r.slug) :=
    (mergeCache_get_of_absent _ _ _ hnoslug).trans (dictGet_baseProj_slug r)
  have hmpath : dictGet (mergeCache (baseProj r) cache) "path" = some (PyVal.str s) :=
    mergeCache_get_of_cache (by decide) hnd hpath
  have hfind : find_project_by_slug env r.slug = some (mergeCache (baseProj r) cache) := by
    simp [find_project_by_slug, hgetall, hslug]
  have hgetd : dictGetD (mergeCache (baseProj r) cache) "path" (PyVal.str "") = PyVal.str s := by
    simp [dictGetD, hmpath]
  refine ⟨hgetall, hmpath, hmeta, hslug, ?_, ?_, ?_⟩
  · intro k v hv hk
    exact mergeCache_get_of_cache hk hnd hv
  · intro hs p hok
    obtain ⟨proj2, s2, hf2, hp2, hshape, hw⟩ := resolve_ok_shape fs env r.slug rel p hok
    rw [hfind] at hf2
    have hpj : proj2 = mergeCache (baseProj r) cache := Option.some.inj hf2.symm
    subst hpj
    rw [hgetd] at hp2
    have hss : s2 = s := (PyVal.str.inj hp2).symm
    rw [← hss]
    exact hw
  · intro hs tp htp
    simp only [find_project_for_path, hgetall, List.isEmpty_cons, Bool.false_eq_true,
      if_false, fppLoop, recordScan, hmpath]
    rw [if_neg (by simp [pyTruthy_str_of_ne hs])]
    rw [if_pos htp]

/-- Witness for C10 at a concrete registry, cache and filesystem. -/
theorem cache_merge_overrides_witness :
    dictGet (mergeCache (baseProj ⟨"widget", "/old", "", []⟩)
      [("path", PyVal.str "/new/root"), ("name", PyVal.str "W")]) "path" =
      some (PyVal.str "/new/root") ∧
    find_project_for_path (mkFS []) c10env "/new/root" =
      Except.ok (some (mergeCache (baseProj ⟨"widget", "/old", "", []⟩)
        [("path", PyVal.str "/new/root"), ("name", PyVal.str "W")])) := by
  have h := cache_merge_overrides (mkFS []) c10env ⟨"widget", "/old", "", []⟩
    [("path", PyVal.str "/new/root"), ("name", PyVal.str "W")] "/new/root" "a/b"
    (by decide) (by decide) (by decide) (by decide) (by decide) (by decide)
  exact ⟨h.2.1, h.2.2.2.2.2.2 (by decide) "/new/root" (by decide)⟩

/-! ## Claims C2 and C7: characterizing `find_project_for_path`

The loop is characterized in two regimes: if some record has an exact match
(primary or additional path equal to the resolved target), the first such
record in registry order is returned; otherwise the loop folds the
`best_depth` accumulator and the deepest matching candidate root wins. -/

theorem maxI_assoc (a b c : Int) : maxI (maxI a b) c = maxI a (maxI b c) := by
  unfold maxI
  split_ifs <;> omega

theorem maxI_comm (a b : Int) : maxI a b = maxI b a := by
  unfold maxI
  split_ifs <;> omega

theorem foldl_maxI_init (l : List Int) (a b : Int) :
    l.foldl maxI (maxI a b) = maxI a (l.foldl maxI b) := by
  induction l generalizing b with
  | nil => rfl
  | cons x rest ih =>
    simp only [List.foldl_cons]
    rw [maxI_assoc, ih]

theorem maxDepth_cons (x : Int) (l : List Int) :
    maxDepth (x :: l) = maxI x (maxDepth l) := by
  simp only [maxDepth, List.foldl_cons]
  rw [maxI_comm (-1) x]
  exact foldl_maxI_init l x (-1)

theorem neg_one_le_maxDepth (l : List Int) : -1 ≤ maxDepth l := by
  induction l with
  | nil => exact le_refl _
  | cons x rest ih =>
    rw [maxDepth_cons]
    unfold maxI
    split_ifs <;> omega

theorem apMatchDepths_cons (fs : FS) (target : List String) (ap : String)
    (rest : List String) :
    apMatchDepths fs target (ap :: rest) =
      if segsWithin (fs.resolve (expand_path fs ap)) target = true then
        depthParts (fs.resolve (expand_path fs ap)) :: apMatchDepths fs target rest
      else apMatchDepths fs target rest := by
  simp only [apMatchDepths, List.map_cons, List.filter_cons]
  split_ifs <;> simp

theorem scanAdditional_exact (fs : FS) (target : List String) (proj : Dict PyVal)
    (aps : List String) (b : Option (Dict PyVal)) (d : Int)
    (hex : ∃ ap ∈ aps, target = fs.resolve (expand_path fs ap)) :
    scanAdditional fs target proj aps b d = ScanRes.found proj := by
  induction aps generalizing b d with
  | nil => simp at hex
  | cons ap rest ih =>
    simp only [scanAdditional]
    by_cases he : target = fs.resolve (expand_path fs ap)
    · rw [if_pos he]
    · rw [if_neg he]
      obtain ⟨ap2, hmem, heq⟩ := hex
      rcases List.mem_cons.mp hmem with h1 | h1
      · exact absurd (h1 ▸ heq) he
      · by_cases hc : segsWithin (fs.resolve (expand_path fs ap)) target = true ∧
            d < depthParts (fs.resolve (expand_path fs ap))
        · rw [if_pos hc]; exact ih _ _ ⟨ap2, h1, heq⟩
        · rw [if_neg hc]; exact ih _ _ ⟨ap2, h1, heq⟩

theorem scanAdditional_noexact (fs : FS) (target : List String) (proj : Dict PyVal)
    (aps : List String) (b : Option (Dict PyVal)) (d : Int) (hd : -1 ≤ d)
    (hnex : ∀ ap ∈ aps, ¬ target = fs.resolve (expand_path fs ap)) :
    scanAdditional fs target proj aps b d =
      ScanRes.cont
        (if d < maxDepth (apMatchDepths fs target aps) then some proj else b)
        (maxI d (maxDepth (apMatchDepths fs target aps))) := by
  induction aps generalizing b d with
  | nil =>
    simp only [scanAdditional, apMatchDepths, List.map_nil, List.filter_nil, maxDepth,
      List.foldl_nil]
    rw [if_neg (by omega), show maxI d (-1) = d from by unfold maxI; split_ifs <;> omega]
  | cons ap rest ih =>
    have hmd := neg_one_le_maxDepth (apMatchDepths fs target rest)
    simp only [scanAdditional]
    rw [if_neg (hnex ap (List.mem_cons_self ap rest))]
    have hnex2 : ∀ ap2 ∈ rest, ¬ target = fs.resolve (expand_path fs ap2) :=
      fun ap2 h2 => hnex ap2 (List.mem_cons_of_mem ap h2)
    rw [apMatchDepths_cons]
    by_cases hw : segsWithin (fs.resolve (expand_path fs ap)) target = true
    · rw [if_pos hw, maxDepth_cons]
      by_cases hlt : d < depthParts (fs.resolve (expand_path fs ap))
      · rw [if_pos ⟨hw, hlt⟩]
        rw [ih (some proj) (depthParts (fs.resolve (expand_path fs ap))) (by omega) hnex2]
        rw [ite_self]
        have h1 : (if d < maxI (depthParts (fs.resolve (expand_path fs ap)))
            (maxDepth (apMatchDepths fs target rest)) then some proj else b) = some proj :=
          if_pos (by unfold maxI; split_ifs <;> omega)
        have h2 : maxI d (maxI (depthParts (fs.resolve (expand_path fs ap)))
            (maxDepth (apMatchDepths fs target rest))) =
            maxI (depthParts (fs.resolve (expand_path fs ap)))
              (maxDepth (apMatchDepths fs target rest)) := by
          unfold maxI; split_ifs <;> omega
        rw [h1, h2]
      · rw [if_neg (fun hc => hlt hc.2)]
        rw [ih b d hd hnex2]
        have h2 : maxI d (maxI (depthParts (fs.resolve (expand_path fs ap)))
            (maxDepth (apMatchDepths fs target rest))) =
            maxI d (maxDepth (apMatchDepths fs target rest)) := by
          unfold maxI; split_ifs <;> omega
        have h1 : (d < maxI (depthParts (fs.resolve (expand_path fs ap)))
            (maxDepth (apMatchDepths fs target rest))) ↔
            (d < maxDepth (apMatchDepths fs target rest)) := by
          unfold maxI
          split_ifs <;> omega
        rw [h2, if_congr h1 rfl rfl]
    · rw [if_neg hw, if_neg (fun hc => hw hc.1)]
      exact ih b d hd hnex2

theorem matchDepths_str (fs : FS) (target : List String) (proj : Dict PyVal)
    (s : String) (hv : dictGet proj "path" = some (PyVal.str s)) (hs : ¬ s = "") :
    matchDepths fs target proj =
      if segsWithin (fs.resolve (expand_path fs s)) target = true then
        depthParts (fs.resolve (expand_path fs s)) ::
          apMatchDepths fs target (additionalOf proj)
      else apMatchDepths fs target (additionalOf proj) := by
  simp only [matchDepths, projCandRoots, hv, if_neg hs, List.filter_cons, apMatchDepths]
  split_ifs <;> simp

theorem recordScan_exact (fs : FS) (target : List String) (proj : Dict PyVal)
    (b : Option (Dict PyVal)) (d : Int) (hex : exactMatches fs target proj = true) :
    recordScan fs target proj b d = some (ScanRes.found proj) := by
  simp only [exactMatches] at hex
  cases hv : dictGet proj "path" with
  | none => rw [hv] at hex; simp at hex
  | some v =>
    rw [hv] at hex
    cases v with
    | str s =>
      simp only at hex
      by_cases hs : s = ""
      · rw [if_pos hs] at hex; simp at hex
      · rw [if_neg hs] at hex
        simp only [recordScan, hv]
        rw [if_neg (by simp [pyTruthy, hs])]
        by_cases he : target = fs.resolve (expand_path fs s)
        · rw [if_pos he]
        · rw [if_neg he] at hex
          rw [if_neg he]
          have hexany : ∃ ap ∈ additionalOf proj,
              target = fs.resolve (expand_path fs ap) := by
            simpa using hex
          by_cases hc : segsWithin (fs.resolve (expand_path fs s)) target = true ∧
              d < depthParts (fs.resolve (expand_path fs s))
          · rw [if_pos hc, scanAdditional_exact fs target proj _ _ _ hexany]
          · rw [if_neg hc, scanAdditional_exact fs target proj _ _ _ hexany]
    | list l => simp at hex
    | map m => simp at hex

theorem recordScan_noexact (fs : FS) (target : List String) (proj : Dict PyVal)
    (b : Option (Dict PyVal)) (d : Int) (hd : -1 ≤ d)
    (hty : pathTypeOk proj = true) (hnex : exactMatches fs target proj = false) :
    recordScan fs target proj b d =
      some (ScanRes.cont (stepBest fs target (b, d) proj).1
        (stepBest fs target (b, d) proj).2) := by
  cases hv : dictGet proj "path" with
  | none =>
    have hmd : matchDepths fs target proj = [] := by
      simp [matchDepths, projCandRoots, hv]
    simp only [recordScan, hv, stepBest, hmd]
    rw [if_neg (show ¬ d < maxDepth [] from by simp only [maxDepth, List.foldl_nil]; omega)]
  | some v =>
    cases v with
    | str s =>
      by_cases hs : s = ""
      · subst hs
        have hmd : matchDepths fs target proj = [] := by
          simp [matchDepths, projCandRoots, hv]
        simp only [recordScan, hv, stepBest, hmd]
        rw [if_pos (by simp [pyTruthy]),
          if_neg (show ¬ d < maxDepth [] from by simp only [maxDepth, List.foldl_nil]; omega)]
      · simp only [exactMatches, hv] at hnex
        rw [if_neg hs] at hnex
        by_cases he : target = fs.resolve (expand_path fs s)
        · rw [if_pos he] at hnex; exact absurd hnex (by simp)
        · rw [if_neg he] at hnex
          have hnall : ∀ ap ∈ additionalOf proj,
              ¬ target = fs.resolve (expand_path fs ap) := by
            intro ap hap hc
            have := List.any_eq_false.mp hnex ap hap
            simp [hc] at this
          simp only [recordScan, hv]
          rw [if_neg (by simp [pyTruthy, hs])]
          rw [if_neg he]
          by_cases hw : segsWithin (fs.resolve (expand_path fs s)) target = true
          · have hpm : maxDepth (matchDepths fs target proj) =
                maxI (depthParts (fs.resolve (expand_path fs s)))
                  (maxDepth (apMatchDepths fs target (additionalOf proj))) := by
              rw [matchDepths_str fs target proj s hv hs, if_pos hw, maxDepth_cons]
            by_cases hlt : d < depthParts (fs.resolve (expand_path fs s))
            · rw [if_pos ⟨hw, hlt⟩]
              rw [scanAdditional_noexact fs target proj _ (some proj)
                (depthParts (fs.resolve (expand_path fs s))) (by omega) hnall]
              rw [ite_self]
              simp only [stepBest, hpm]
              rw [if_pos (show d < maxI (depthParts (fs.resolve (expand_path fs s)))
                (maxDepth (apMatchDepths fs target (additionalOf proj))) from by
                  unfold maxI; split_ifs <;> omega)]
            · rw [if_neg (fun hc => hlt hc.2)]
              rw [scanAdditional_noexact fs target proj _ b d hd hnall]
              simp only [stepBest, hpm]
              have h1 : (d < maxI (depthParts (fs.resolve (expand_path fs s)))
                  (maxDepth (apMatchDepths fs target (additionalOf proj)))) ↔
                  (d < maxDepth (apMatchDepths fs target (additionalOf proj))) := by
                unfold maxI; split_ifs <;> omega
              split_ifs with hA hB hB
              · have : maxI d (maxDepth (apMatchDepths fs target (additionalOf proj))) =
                    maxI (depthParts (fs.resolve (expand_path fs s)))
                      (maxDepth (apMatchDepths fs target (additionalOf proj))) := by
                  unfold maxI; split_ifs <;> omega
                rw [this]
              · exact absurd (h1.mpr hA) hB
              · exact absurd (h1.mp hB) hA
              · have : maxI d (maxDepth (apMatchDepths fs target (additionalOf proj))) = d := by
                  unfold maxI; split_ifs <;> omega
                rw [this]
          · have hpm : maxDepth (matchDepths fs target proj) =
                maxDepth (apMatchDepths fs target (additionalOf proj)) := by
              rw [matchDepths_str fs target proj s hv hs, if_neg hw]
            rw [if_neg (fun hc => hw hc.1)]
            rw [scanAdditional_noexact fs target proj _ b d hd hnall]
            simp only [stepBest, hpm]
            split_ifs with hA
            · have : maxI d (maxDepth (apMatchDepths fs target (additionalOf proj))) =
                  maxDepth (apMatchDepths fs target (additionalOf proj)) := by
                unfold maxI; split_ifs <;> omega
              rw [this]
            · have : maxI d (maxDepth (apMatchDepths fs target (additionalOf proj))) = d := by
                unfold maxI; split_ifs <;> omega
              rw [this]
    | list l =>
      simp only [pathTypeOk, hv] at hty
      have hl : l = [] := by simpa using hty
      subst hl
      have hmd : matchDepths fs target proj = [] := by
        simp [matchDepths, projCandRoots, hv]
      simp only [recordScan, hv, stepBest, hmd]
      rw [if_pos (by simp [pyTruthy]),
        if_neg (show ¬ d < maxDepth [] from by simp only [maxDepth, List.foldl_nil]; omega)]
    | map m =>
      simp only [pathTypeOk, hv] at hty
      have hm : m = [] := by simpa using hty
      subst hm
      have hmd : matchDepths fs target proj = [] := by
        simp [matchDepths, projCandRoots, hv]
      simp only [recordScan, hv, stepBest, hmd]
      rw [if_pos (by simp [pyTruthy]),
        if_neg (show ¬ d < maxDepth [] from by simp only [maxDepth, List.foldl_nil]; omega)]

theorem stepBest_snd (fs : FS) (target : List String)
    (bd : Option (Dict PyVal) × Int) (proj : Dict PyVal) :
    (stepBest fs target bd proj).2 =
      maxI bd.2 (maxDepth (matchDepths fs target proj)) := by
  unfold stepBest maxI
  split_ifs <;> rfl

theorem stepBest_snd_ge (fs : FS) (target : List String)
    (bd : Option (Dict PyVal) × Int) (proj : Dict PyVal) :
    bd.2 ≤ (stepBest fs target bd proj).2 := by
  unfold stepBest
  split_ifs with h
  · exact le_of_lt h
  · exact le_refl _

/-- Full characterization of the record loop: the first exact match is
returned immediately; with no exact match the loop returns the fold of the
best-depth accumulator. -/
theorem fppLoop_spec (fs : FS) (target : List String) (l : List (Dict PyVal))
    (b : Option (Dict PyVal)) (d : Int) (hd : -1 ≤ d)
    (hstr : strPathsOnly l = true) :
    fppLoop fs target l b d =
      match l.find? (exactMatches fs target) with
      | some proj => Except.ok (some proj)
      | none => Except.ok (l.foldl (stepBest fs target) (b, d)).1 := by
  induction l generalizing b d with
  | nil => rfl
  | cons proj rest ih =>
    have hty : pathTypeOk proj = true := by
      simp only [strPathsOnly, List.all_cons, Bool.and_eq_true] at hstr
      exact hstr.1
    have hstr2 : strPathsOnly rest = true := by
      simp only [strPathsOnly, List.all_cons, Bool.and_eq_true] at hstr
      exact hstr.2
    cases hex : exactMatches fs target proj with
    | true =>
      simp only [fppLoop, recordScan_exact fs target proj b d hex]
      rw [List.find?_cons_of_pos _ hex]
    | false =>
      simp only [fppLoop, recordScan_noexact fs target proj b d hd hty hex]
      rw [List.find?_cons_of_neg _ (by simp [hex])]
      rw [List.foldl_cons]
      have hd2 : -1 ≤ (stepBest fs target (b, d) proj).2 :=
        le_trans hd (stepBest_snd_ge fs target (b, d) proj)
      have := ih (stepBest fs target (b, d) proj).1 (stepBest fs target (b, d) proj).2
        hd2 hstr2
      simpa only [Prod.mk.eta] using this

/-- The accumulator fold: its depth only grows; if it did not grow the best
match is unchanged; if it grew, the best match is a listed record achieving
the final depth. -/
theorem foldBest_spec (fs : FS) (target : List String) (l : List (Dict PyVal))
    (b : Option (Dict PyVal)) (d : Int) :
    d ≤ (l.foldl (stepBest fs target) (b, d)).2 ∧
    ((l.foldl (stepBest fs target) (b, d)).2 = d →
      (l.foldl (stepBest fs target) (b, d)).1 = b) ∧
    (d < (l.foldl (stepBest fs target) (b, d)).2 →
      ∃ proj ∈ l, (l.foldl (stepBest fs target) (b, d)).1 = some proj ∧
        maxDepth (matchDepths fs target proj) =
          (l.foldl (stepBest fs target) (b, d)).2) := by
  induction l generalizing b d with
  | nil => exact ⟨le_refl d, fun _ => rfl, fun h => absurd h (lt_irrefl d)⟩
  | cons proj rest ih =>
    simp only [List.foldl_cons]
    obtain ⟨ih1, ih2, ih3⟩ := ih (stepBest fs target (b, d) proj).1
      (stepBest fs target (b, d) proj).2
    simp only [Prod.mk.eta] at ih1 ih2 ih3
    refine ⟨?_, ?_, ?_⟩
    · exact le_trans (stepBest_snd_ge fs target (b, d) proj) ih1
    · intro heq
      have hsb : (stepBest fs target (b, d) proj).2 = d :=
        le_antisymm (ih1.trans_eq heq) (stepBest_snd_ge fs target (b, d) proj)
      have hsb1 : (stepBest fs target (b, d) proj).1 = b := by
        unfold stepBest at hsb ⊢
        split_ifs at hsb ⊢ with hc
        · simp only at hsb; omega
        · rfl
      exact (ih2 (heq.trans hsb.symm)).trans hsb1
    · intro hlt
      rcases eq_or_lt_of_le ih1 with heq2 | hlt2
      · have hdlt : d < (stepBest fs target (b, d) proj).2 := by
          rw [heq2]; exact hlt
        have hup : stepBest fs target (b, d) proj =
            (some proj, maxDepth (matchDepths fs target proj)) := by
          unfold stepBest at hdlt ⊢
          split_ifs at hdlt ⊢ with hc
          · rfl
          · simp only at hdlt; omega
        refine ⟨proj, List.mem_cons_self proj rest, ?_, ?_⟩
        · exact (ih2 heq2.symm).trans (congrArg Prod.fst hup)
        · rw [← heq2, hup]
      · obtain ⟨proj2, hm2, hp2, hq2⟩ := ih3 hlt2
        exact ⟨proj2, List.mem_cons_of_mem proj hm2, hp2, hq2⟩

theorem foldBest_snd (fs : FS) (target : List String) (l : List (Dict PyVal))
    (b : Option (Dict PyVal)) (d : Int) :
    (l.foldl (stepBest fs target) (b, d)).2 =
      l.foldl (fun a proj => maxI a (maxDepth (matchDepths fs target proj))) d := by
  induction l generalizing b d with
  | nil => rfl
  | cons proj rest ih =>
    simp only [List.foldl_cons]
    have := ih (stepBest fs target (b, d) proj).1 (stepBest fs target (b, d) proj).2
    simp only [Prod.mk.eta] at this
    rw [this, stepBest_snd]

/-- C2 counterexample: record beta's primary path is `/a/b` and record alpha
(listed first) carries `/a/b` among its additional paths; the lookup of
`/a/b` returns alpha — the first record with an exact match in registry
order — not beta, so the claimed order independence is false. -/
theorem find_project_exact_order_counterexample :
    parse_registry c2env =
      [⟨"alpha", "/x", "", ["/a/b"]⟩, ⟨"beta", "/a/b", "", []⟩] ∧
    find_project_for_path (mkFS []) c2env "/a/b" =
      Except.ok (some (baseProj ⟨"alpha", "/x", "", ["/a/b"]⟩)) ∧
    ¬ find_project_for_path (mkFS []) c2env "/a/b" =
      Except.ok (some (baseProj ⟨"beta", "/a/b", "", []⟩)) := by
  exact ⟨by decide, by decide, by decide⟩

/-- C2 amended: an exact match (of the primary path or of any additional
path) short-circuits the scan, and the FIRST record in registry order with
an exact match wins — so with B before A the lookup of `/a/b` returns B,
and with A before B it returns A; the result depends on registry order. -/
theorem find_project_first_exact_wins (fs : FS) (env : PyEnv) (tp : String)
    (proj : Dict PyVal)
    (hstr : strPathsOnly (get_all_projects env) = true)
    (hex : (get_all_projects env).find?
      (exactMatches fs (fs.resolve (parsePath tp))) = some proj) :
    find_project_for_path fs env tp = Except.ok (some proj) := by
  cases hgl : get_all_projects env with
  | nil => rw [hgl] at hex; simp at hex
  | cons p0 rest =>
    rw [hgl] at hex
    simp only [find_project_for_path, hgl]
    rw [if_neg (by simp)]
    rw [fppLoop_spec fs _ _ none (-1) (by omega) (hgl ▸ hstr)]
    rw [hex]

/-- Witness for the amended C2: with beta listed first, beta is returned. -/
theorem find_project_first_exact_wins_witness :
    find_project_for_path (mkFS []) c2envB "/a/b" =
      Except.ok (some (baseProj ⟨"beta", "/a/b", "", []⟩)) :=
  find_project_first_exact_wins (mkFS []) c2envB "/a/b"
    (baseProj ⟨"beta", "/a/b", "", []⟩) (by decide) (by decide)

/-- C7 counterexample: record alpha has no primary path but lists `/a/b`
among its additional paths; record beta is rooted at `/a`. For target
`/a/b/c`, alpha's candidate root `/a/b` (3 parts) is a deeper ancestor than
beta's `/a` (2 parts), yet the loop returns beta, because records without a
configured primary path are skipped entirely — their additional paths are
never considered. -/
theorem deepest_ancestor_counterexample :
    parse_registry c7env =
      [⟨"alpha", "", "", ["/a/b"]⟩, ⟨"beta", "/a", "", []⟩] ∧
    segsWithin ["a", "b"] ["a", "b", "c"] = true ∧
    segsWithin ["a"] ["a", "b", "c"] = true ∧
    find_project_for_path (mkFS []) c7env "/a/b/c" =
      Except.ok (some (baseProj ⟨"beta", "/a", "", []⟩)) := by
  exact ⟨by decide, by decide, by decide, by decide⟩

/-- C7 amended: with no exact match anywhere, and considering only records
whose primary path is a nonempty string (records without a configured
primary path are skipped entirely, additional paths included), the loop
returns no record exactly when no candidate root (primary or additional) of
a considered record is an ancestor of the target, and otherwise returns a
record whose matching candidate root has the greatest `len(parts)` among
all candidate ancestor roots — in particular a deeper additional path of
one record out-ranks a shallower primary path of another. -/
theorem deepest_ancestor_match (fs : FS) (env : PyEnv) (tp : String)
    (hstr : strPathsOnly (get_all_projects env) = true)
    (hnoex : (get_all_projects env).any
      (exactMatches fs (fs.resolve (parsePath tp))) = false) :
    (bestCandDepth fs (fs.resolve (parsePath tp)) (get_all_projects env) = -1 →
      find_project_for_path fs env tp = Except.ok none) ∧
    (-1 < bestCandDepth fs (fs.resolve (parsePath tp)) (get_all_projects env) →
      ∃ proj ∈ get_all_projects env,
        find_project_for_path fs env tp = Except.ok (some proj) ∧
        maxDepth (matchDepths fs (fs.resolve (parsePath tp)) proj) =
          bestCandDepth fs (fs.resolve (parsePath tp)) (get_all_projects env)) := by
  cases hgl : get_all_projects env with
  | nil =>
    constructor
    · intro _
      simp [find_project_for_path, hgl]
    · intro hlt
      simp [bestCandDepth] at hlt
  | cons p0 rest =>
    have hfind : (p0 :: rest).find?
        (exactMatches fs (fs.resolve (parsePath tp))) = none := by
      rw [List.find?_eq_none]
      exact fun x hx => List.any_eq_false.mp (hgl ▸ hnoex) x hx
    have hfu : find_project_for_path fs env tp =
        Except.ok (((p0 :: rest).foldl
          (stepBest fs (fs.resolve (parsePath tp))) (none, -1)).1) := by
      simp only [find_project_for_path, hgl]
      rw [if_neg (by simp)]
      rw [fppLoop_spec fs _ _ none (-1) (by omega) (hgl ▸ hstr)]
      simp only [hfind]
    obtain ⟨f1, f2, f3⟩ :=
      foldBest_spec fs (fs.resolve (parsePath tp)) (p0 :: rest) none (-1)
    have hbc : bestCandDepth fs (fs.resolve (parsePath tp)) (p0 :: rest) =
        ((p0 :: rest).foldl (stepBest fs (fs.resolve (parsePath tp))) (none, -1)).2 := by
      unfold bestCandDepth
      exact (foldBest_snd fs (fs.resolve (parsePath tp)) (p0 :: rest) none (-1)).symm
    constructor
    · intro hbd
      rw [hfu, f2 (by rw [← hbc]; exact hbd)]
    · intro hlt
      have hlt2 : -1 <
          ((p0 :: rest).foldl (stepBest fs (fs.resolve (parsePath tp))) (none, -1)).2 := by
        rw [← hbc]; exact hlt
      obtain ⟨proj, hm, hp, hq⟩ := f3 hlt2
      exact ⟨proj, hm, by rw [hfu, hp], by rw [hq, hbc]⟩

/-- Witness for the amended C7: alpha's additional root `/a/b` is deeper
than beta's primary root `/a` for target `/a/b/c`, and the loop returns a
record achieving the maximal candidate depth. -/
theorem deepest_ancestor_match_witness :
    ∃ proj ∈ get_all_projects c7envB,
      find_project_for_path (mkFS []) c7envB "/a/b/c" = Except.ok (some proj) ∧
      maxDepth (matchDepths (mkFS []) ((mkFS []).resolve (parsePath "/a/b/c")) proj) =
        bestCandDepth (mkFS []) ((mkFS []).resolve (parsePath "/a/b/c"))
          (get_all_projects c7envB) :=
  (deepest_ancestor_match (mkFS []) c7envB "/a/b/c" (by decide) (by decide)).2
    (by decide)
